import Mathlib

/-!
A verification development for a generic prefix trie (Rust crate `trie-rs`).

The trie is embedded shallowly: the Rust struct
`Trie { value: Option<V>, children: HashMap<K, Trie<K, V>> }` becomes a nested
inductive with the children map rendered as an association list with unique
keys (one entry per distinct token, first-match lookup, in-place update on an
existing key and append on a fresh key — exactly the observable behavior of
the `HashMap` entry API, with insertion order as the one concrete iteration
order).  All operations are translated from `src/lib.rs` and `src/assoc.rs`.
-/

set_option maxHeartbeats 1000000
set_option linter.unusedSectionVars false
set_option linter.unusedVariables false

/-- Node of the prefix trie, from `src/lib.rs`:
`struct Trie<K, V> { value: Option<V>, children: HashMap<K, Trie<K, V>> }`. -/
inductive Trie (K V : Type) : Type where
  | node (value : Option V) (children : List (K × Trie K V)) : Trie K V
deriving Repr

namespace Trie

variable {K V : Type} [DecidableEq K]

/-- Field accessor for `value`. -/
def value : Trie K V → Option V
  | .node v _ => v

/-- Field accessor for `children`. -/
def children : Trie K V → List (K × Trie K V)
  | .node _ ch => ch

@[simp] theorem value_node (v : Option V) (ch : List (K × Trie K V)) :
    (Trie.node v ch).value = v := rfl

@[simp] theorem children_node (v : Option V) (ch : List (K × Trie K V)) :
    (Trie.node v ch).children = ch := rfl

/-- The empty node, from `Trie::new` / `Default::default()`. -/
def new : Trie K V := .node none []

end Trie

section AssocOps

variable {K V : Type} [DecidableEq K]

/-- Lookup of `HashMap::get`: the child stored under token `c`
(first matching entry of the association list). -/
def getChild : List (K × Trie K V) → K → Option (Trie K V)
  | [], _ => none
  | (k, t) :: es, c => if c = k then some t else getChild es c

/-- Update-or-append of the `HashMap` entry API: if token `c` is present the
first matching entry is replaced in place, otherwise `(c, t)` is appended. -/
def setChild : List (K × Trie K V) → K → Trie K V → List (K × Trie K V)
  | [], c, t => [(c, t)]
  | (k, t₀) :: es, c, t => if c = k then (c, t) :: es else (k, t₀) :: setChild es c t

/-- Deletion of `HashMap::remove` (via `OccupiedEntry::remove`): drops the
first entry stored under token `c`. -/
def eraseChild : List (K × Trie K V) → K → List (K × Trie K V)
  | [], _ => []
  | (k, t₀) :: es, c => if c = k then es else (k, t₀) :: eraseChild es c

end AssocOps

namespace Trie

variable {K V : Type} [DecidableEq K]

/-- Embeds `Trie::insert` from `src/lib.rs`: walk the key, creating an empty
child (`entry(c).or_insert_with(Trie::new)`) wherever the edge is missing, and
set the final node's value. -/
def insert : Trie K V → List K → V → Trie K V
  | t, [], v => .node (some v) t.children
  | t, c :: cs, v =>
      .node t.value (setChild t.children c (insert ((getChild t.children c).getD Trie.new) cs v))

/-- Embeds `Trie::insert_alt` from `src/lib.rs`.  The raw-pointer reborrow
`node = &mut *ptr` in the source is the identity on the reached node, so the
loop's functional content coincides with `insert`'s loop. -/
def insert_alt : Trie K V → List K → V → Trie K V
  | t, [], v => .node (some v) t.children
  | t, c :: cs, v =>
      .node t.value (setChild t.children c (insert_alt ((getChild t.children c).getD Trie.new) cs v))

/-- Loop body of the fold in `Trie::insert_fold` from `src/assoc.rs`:
`match cur_node.children.entry(c) { Vacant(v) => v.insert(Trie::new()), Occupied(v) => v.into_mut() }`.
The threaded `&mut` accumulator is rendered as a zipper: a rebuilding context
paired with the node the reference currently points at; stepping by token `c`
composes "write the updated child `c` back" onto the context and descends
into the existing child or a fresh empty node. -/
def foldStep : ((Trie K V → Trie K V) × Trie K V) → K → ((Trie K V → Trie K V) × Trie K V) :=
  fun acc c =>
    (fun x => acc.1 (Trie.node acc.2.value (setChild acc.2.children c x)),
     (getChild acc.2.children c).getD Trie.new)

/-- Embeds `Trie::insert_fold` from `src/assoc.rs`: fold `foldStep` over the
key starting from the root, then perform the final write
`node.value = Some(value)` through the accumulated context. -/
def insert_fold (t : Trie K V) (ks : List K) (v : V) : Trie K V :=
  let acc := ks.foldl foldStep (id, t)
  acc.1 (Trie.node (some v) acc.2.children)

/-- Embeds `Trie::is_empty`: `self.value.is_none() && self.children.is_empty()`. -/
def is_empty (t : Trie K V) : Bool :=
  t.value.isNone && t.children.isEmpty

/-- Embeds `Trie::get_ref` from `src/lib.rs`: follow existing child edges for
each token, returning the reached node, or `none` as soon as an edge is
missing. -/
def get_ref : Trie K V → List K → Option (Trie K V)
  | t, [] => some t
  | t, c :: cs =>
      match getChild t.children c with
      | none => none
      | some child => get_ref child cs

/-- Exact-key lookup derived from `get_ref`: the value field of the node
reached by the key (the spec's `get_node(seq).value`). -/
def valueAt (t : Trie K V) (s : List K) : Option V :=
  (t.get_ref s).bind Trie.value

/-- Embeds `Trie::contains_prefix` from `src/assoc.rs`: walk the key through
existing child edges; `false` as soon as `children.contains_key(&c)` fails,
`true` once the key is exhausted. -/
def contains_pfx : Trie K V → List K → Bool
  | _, [] => true
  | t, c :: cs =>
      match getChild t.children c with
      | none => false
      | some child => contains_pfx child cs

/-- Embeds `Trie::remove` from `src/lib.rs`, which mutates `self` and returns
an `Option<V>`; the embedding returns the pair (returned value, new node).
Empty key: `self.value = None` and fall through to `return None`.  Non-empty
key: if the edge exists, recurse into the (in-place mutated) child; when the
recursive call returns `Some`, the child entry is removed and that value
propagated, otherwise fall through to `return None`. -/
def remove : Trie K V → List K → Option V × Trie K V
  | t, [] => (none, .node none t.children)
  | t, c :: cs =>
      match getChild t.children c with
      | none => (none, t)
      | some child =>
          let r := remove child cs
          if r.1.isSome then (r.1, .node t.value (eraseChild t.children c))
          else (none, .node t.value (setChild t.children c r.2))

/-- Embeds `Trie::remove` from `src/assoc.rs`, which returns
`self.is_empty()` after the mutation (a `bool`).  Empty key: clear the value.
Non-empty key: if the edge exists, recurse; when the child reports itself
empty afterwards, its entry is removed (unwind-time pruning). -/
def removeB : Trie K V → List K → Bool × Trie K V
  | t, [] =>
      let t' : Trie K V := .node none t.children
      (t'.is_empty, t')
  | t, c :: cs =>
      match getChild t.children c with
      | none => (t.is_empty, t)
      | some child =>
          let r := removeB child cs
          let t' : Trie K V :=
            if r.1 then .node t.value (eraseChild t.children c)
            else .node t.value (setChild t.children c r.2)
          (t'.is_empty, t')

end Trie

/-! ### Size bookkeeping for the traversal loops -/

section Sizes

variable {K V : Type}

mutual

/-- Number of nodes of a trie (a termination measure for the traversal
loops; not part of the source). -/
def Trie.size : Trie K V → Nat
  | .node _ ch => 1 + sizeL ch

/-- Number of nodes reachable from a children list. -/
def sizeL : List (K × Trie K V) → Nat
  | [] => 0
  | (_, c) :: es => Trie.size c + sizeL es

end

@[simp] theorem size_node (v : Option V) (ch : List (K × Trie K V)) :
    (Trie.node v ch).size = 1 + sizeL ch := by rw [Trie.size]

@[simp] theorem sizeL_nil : sizeL ([] : List (K × Trie K V)) = 0 := by rw [sizeL]

@[simp] theorem sizeL_cons (k : K) (c : Trie K V) (es : List (K × Trie K V)) :
    sizeL ((k, c) :: es) = c.size + sizeL es := by rw [sizeL]

theorem sizeL_children_lt_size (t : Trie K V) : sizeL t.children < t.size := by
  cases t with
  | node v ch => simp

theorem sum_size_map_snd_le (ch : List (K × Trie K V)) :
    ((ch.map Prod.snd).map Trie.size).sum ≤ sizeL ch := by
  induction ch with
  | nil => simp
  | cons p es ih =>
      obtain ⟨k, c⟩ := p
      simp only [List.map_cons, List.sum_cons, sizeL_cons]
      omega

/-- Combined node count of the frames of the iterator stack (termination
measure only). -/
def entriesSize : List (List (K × Trie K V)) → Nat
  | [] => 0
  | es :: stk => sizeL es + entriesSize stk

@[simp] theorem entriesSize_nil : entriesSize ([] : List (List (K × Trie K V))) = 0 := rfl

@[simp] theorem entriesSize_cons (es : List (K × Trie K V)) (stk : List (List (K × Trie K V))) :
    entriesSize (es :: stk) = sizeL es + entriesSize stk := rfl

end Sizes

/-! ### Breadth-first value collection (`values_vec`) -/

section Bfs

variable {K V : Type}

/-- Embeds the loop of `Trie::values_vec` from `src/lib.rs`: a `VecDeque` of
nodes, initially holding `self`; each step pops the front node and, for each
of its children, pushes the child to the back and collects the child's value
if present.  The list argument is the queue, front first. -/
def bfsValues : List (Trie K V) → List V
  | [] => []
  | t :: queue =>
      (t.children.filterMap fun p => p.2.value) ++
        bfsValues (queue ++ t.children.map Prod.snd)
termination_by l => (l.map Trie.size).sum
decreasing_by
  simp only [List.map_append, List.sum_append, List.map_cons, List.sum_cons]
  have h1 := sum_size_map_snd_le t.children
  have h2 := sizeL_children_lt_size t
  omega

/-- Embeds `Trie::values_vec` itself: run the queue loop starting from `self`. -/
def Trie.values_vec (t : Trie K V) : List V := bfsValues [t]

end Bfs

/-! ### The depth-first iterator (`Iter::next`) -/

section Iter

variable {K V : Type}

/-- One iteration of the `loop` body of `Iter::next` from `src/lib.rs`.
State: the reconstructed key so far (`prefix`, a `Vec` pushed/popped at the
end) and the stack of child iterators, each frame being the entries the
corresponding `hash_map::Iter` has not produced yet (top of the `Vec` stack =
head of the list).  Result: `none` when `stack.last_mut()` is `None` (the
iterator is exhausted); otherwise the optional yielded item together with the
successor state. -/
def iterStep :
    List K × List (List (K × Trie K V)) →
      Option (Option (List K × V) × (List K × List (List (K × Trie K V))))
  | (_, []) => none
  | (pfx, [] :: stk) => some (none, (pfx.dropLast, stk))
  | (pfx, ((k, c) :: es) :: stk) =>
      some ((c.value.map fun v => (pfx ++ [k], v)),
        (pfx ++ [k], c.children :: es :: stk))

/-- Runs `Iter::next` to exhaustion: the list of all items the iterator
yields from a given state, each item being (reconstructed key, value). -/
def drain : List K → List (List (K × Trie K V)) → List (List K × V)
  | _, [] => []
  | pfx, [] :: stk => drain pfx.dropLast stk
  | pfx, ((k, c) :: es) :: stk =>
      (match c.value with
       | some v => [(pfx ++ [k], v)]
       | none => []) ++ drain (pfx ++ [k]) (c.children :: es :: stk)
termination_by pfx stk => 2 * entriesSize stk + stk.length
decreasing_by
  · simp only [entriesSize_cons, sizeL_nil, List.length_cons]
    omega
  · simp only [entriesSize_cons, sizeL_cons, List.length_cons]
    have h := sizeL_children_lt_size c
    omega

/-- The full run of the iterator produced by `Trie::iter`: the first call to
`next` sets `started` and pushes `node.children.iter()`, and iteration
proceeds from the empty reconstructed key. -/
def Trie.iterItems (t : Trie K V) : List (List K × V) :=
  drain [] [t.children]

theorem drain_eq_iterStep (pfx : List K) (stk : List (List (K × Trie K V))) :
    drain pfx stk =
      match iterStep (pfx, stk) with
      | none => []
      | some (out, (pfx', stk')) => (out.map fun it => [it]).getD [] ++ drain pfx' stk' := by
  match stk with
  | [] => simp [drain, iterStep]
  | [] :: stk => simp [drain, iterStep]
  | ((k, c) :: es) :: stk =>
      rw [drain]
      cases h : c.value <;> simp [iterStep, h]

end Iter

/-! ### Spec-side model: operation sequences and the abstract map -/

section Model

variable {K V : Type} [DecidableEq K]

/-- Modelled from the spec: one mutating operation on the trie (§4.1 names
insertion and removal as the mutating operations). -/
inductive TrieOp (K V : Type) : Type where
  | ins (ks : List K) (v : V) : TrieOp K V
  | rem (ks : List K) : TrieOp K V

/-- Applies one operation, with `src/lib.rs`'s `insert` and `remove`. -/
def applyOp (t : Trie K V) : TrieOp K V → Trie K V
  | .ins ks v => t.insert ks v
  | .rem ks => (t.remove ks).2

/-- Applies a sequence of operations from left to right. -/
def applyOps (t : Trie K V) (ops : List (TrieOp K V)) : Trie K V :=
  ops.foldl applyOp t

/-- Keys of all insertions in an operation sequence. -/
def insKeys : List (TrieOp K V) → List (List K)
  | [] => []
  | .ins ks _ :: rest => ks :: insKeys rest
  | .rem _ :: rest => insKeys rest

/-- Modelled from the spec: the effect of one operation on the value a fixed
key `s` is mapped to. -/
def modelStep (s : List K) : Option V → TrieOp K V → Option V
  | acc, .ins ks v => if s = ks then some v else acc
  | acc, .rem ks => if s = ks then none else acc

/-- Modelled from the spec: the abstract association the spec's §8 properties
describe — the value a key is mapped to after a sequence of inserts and
removes, with later operations overriding earlier ones. -/
def modelMap (ops : List (TrieOp K V)) (s : List K) : Option V :=
  ops.foldl (modelStep s) none

/-- Well-formedness of a trie node: every children list binds each token at
most once (the `HashMap` key-uniqueness refinement invariant). -/
inductive WF : Trie K V → Prop where
  | mk : ∀ (v : Option V) (ch : List (K × Trie K V)),
      (ch.map Prod.fst).Nodup → (∀ p ∈ ch, WF p.2) → WF (.node v ch)

theorem WF.nodup_keys {v : Option V} {ch : List (K × Trie K V)}
    (h : WF (.node v ch)) : (ch.map Prod.fst).Nodup := by
  cases h with | mk _ _ hn _ => exact hn

theorem WF.children_wf {v : Option V} {ch : List (K × Trie K V)}
    (h : WF (.node v ch)) : ∀ p ∈ ch, WF p.2 := by
  cases h with | mk _ _ _ hc => exact hc

theorem WF_new : WF (Trie.new : Trie K V) := by
  exact WF.mk none [] (by simp) (by simp)

end Model

/-! ### Spec-side model: the denotation of a depth-first enumeration -/

section SubtreeItems

variable {K V : Type} [DecidableEq K]

mutual

/-- Modelled from the spec (§4.1 `enumerate`): the (relative key, value)
pairs of every valued node in the subtree rooted here, the node itself
included with the empty relative key. -/
def subtreeItems : Trie K V → List (List K × V)
  | .node v ch =>
      (match v with
       | some x => [(([] : List K), x)]
       | none => []) ++ subtreeItemsL ch

/-- Items of a list of child entries: each child's items, with the child's
token consed onto the relative keys. -/
def subtreeItemsL : List (K × Trie K V) → List (List K × V)
  | [] => []
  | (k, c) :: es => ((subtreeItems c).map fun it => (k :: it.1, it.2)) ++ subtreeItemsL es

end

/-- Modelled from the spec: the values held by the strict descendants of a
node (every valued node of the subtree except the node itself). -/
def strictDescValues (t : Trie K V) : List V :=
  (subtreeItemsL t.children).map Prod.snd

end SubtreeItems

/-! ### Association-list lemmas -/

section AssocLemmas

variable {K V : Type} [DecidableEq K]

@[simp] theorem getChild_nil (c : K) : getChild ([] : List (K × Trie K V)) c = none := rfl

theorem getChild_cons_self (c : K) (t : Trie K V) (es : List (K × Trie K V)) :
    getChild ((c, t) :: es) c = some t := by
  simp [getChild]

theorem getChild_cons_ne {c k : K} (h : c ≠ k) (t : Trie K V) (es : List (K × Trie K V)) :
    getChild ((k, t) :: es) c = getChild es c := by
  simp [getChild, h]

theorem setChild_nil (c : K) (x : Trie K V) :
    setChild ([] : List (K × Trie K V)) c x = [(c, x)] := rfl

theorem setChild_cons_self (c : K) (t x : Trie K V) (es : List (K × Trie K V)) :
    setChild ((c, t) :: es) c x = (c, x) :: es := by
  simp [setChild]

theorem setChild_cons_ne {c k : K} (h : c ≠ k) (t x : Trie K V) (es : List (K × Trie K V)) :
    setChild ((k, t) :: es) c x = (k, t) :: setChild es c x := by
  simp [setChild, h]

@[simp] theorem getChild_setChild_self (ch : List (K × Trie K V)) (c : K) (x : Trie K V) :
    getChild (setChild ch c x) c = some x := by
  induction ch with
  | nil => rw [setChild_nil, getChild_cons_self]
  | cons p es ih =>
      obtain ⟨k, t⟩ := p
      by_cases h : c = k
      · subst h
        rw [setChild_cons_self, getChild_cons_self]
      · rw [setChild_cons_ne h, getChild_cons_ne h, ih]

theorem getChild_setChild_ne (ch : List (K × Trie K V)) {c k : K} (h : k ≠ c) (x : Trie K V) :
    getChild (setChild ch c x) k = getChild ch k := by
  induction ch with
  | nil => rw [setChild_nil, getChild_cons_ne h]
  | cons p es ih =>
      obtain ⟨k₀, t⟩ := p
      by_cases h1 : c = k₀
      · subst h1
        rw [setChild_cons_self, getChild_cons_ne h]
        by_cases h2 : k = c
        · exact absurd h2 h
        · rw [getChild_cons_ne h2]
      · rw [setChild_cons_ne h1]
        by_cases h2 : k = k₀
        · subst h2
          rw [getChild_cons_self, getChild_cons_self]
        · rw [getChild_cons_ne h2, getChild_cons_ne h2, ih]

theorem setChild_of_getChild_eq {ch : List (K × Trie K V)} {c : K} {x : Trie K V}
    (h : getChild ch c = some x) : setChild ch c x = ch := by
  induction ch with
  | nil => simp [getChild] at h
  | cons p es ih =>
      obtain ⟨k, t⟩ := p
      by_cases h1 : c = k
      · subst h1
        rw [getChild_cons_self, Option.some.injEq] at h
        rw [setChild_cons_self, h]
      · rw [getChild_cons_ne h1] at h
        rw [setChild_cons_ne h1, ih h]

theorem setChild_setChild (ch : List (K × Trie K V)) (c : K) (x y : Trie K V) :
    setChild (setChild ch c x) c y = setChild ch c y := by
  induction ch with
  | nil => rw [setChild_nil, setChild_cons_self, setChild_nil]
  | cons p es ih =>
      obtain ⟨k, t⟩ := p
      by_cases h : c = k
      · subst h
        rw [setChild_cons_self, setChild_cons_self, setChild_cons_self]
      · rw [setChild_cons_ne h, setChild_cons_ne h, setChild_cons_ne h, ih]

theorem mem_keys_setChild (ch : List (K × Trie K V)) (c : K) (x : Trie K V) (a : K) :
    a ∈ (setChild ch c x).map Prod.fst ↔ a = c ∨ a ∈ ch.map Prod.fst := by
  induction ch with
  | nil => simp [setChild_nil]
  | cons p es ih =>
      obtain ⟨k, t⟩ := p
      by_cases h : c = k
      · subst h
        rw [setChild_cons_self]
        simp only [List.map_cons, List.mem_cons]
        tauto
      · rw [setChild_cons_ne h]
        simp only [List.map_cons, List.mem_cons, ih]
        tauto

theorem nodup_keys_setChild {ch : List (K × Trie K V)} (c : K) (x : Trie K V)
    (h : (ch.map Prod.fst).Nodup) : ((setChild ch c x).map Prod.fst).Nodup := by
  induction ch with
  | nil => simp [setChild_nil]
  | cons p es ih =>
      obtain ⟨k, t⟩ := p
      simp only [List.map_cons, List.nodup_cons] at h
      by_cases hc : c = k
      · subst hc
        rw [setChild_cons_self]
        simp only [List.map_cons, List.nodup_cons]
        exact ⟨h.1, h.2⟩
      · rw [setChild_cons_ne hc]
        simp only [List.map_cons, List.nodup_cons]
        refine ⟨?_, ih h.2⟩
        rw [mem_keys_setChild]
        rintro (rfl | hk)
        · exact hc rfl
        · exact h.1 hk

theorem mem_of_mem_setChild {ch : List (K × Trie K V)} {c : K} {x : Trie K V}
    {p : K × Trie K V} (hp : p ∈ setChild ch c x) : p = (c, x) ∨ p ∈ ch := by
  induction ch with
  | nil =>
      rw [setChild_nil] at hp
      simp at hp
      exact Or.inl hp
  | cons q es ih =>
      obtain ⟨k, t⟩ := q
      by_cases h : c = k
      · subst h
        rw [setChild_cons_self] at hp
        rcases List.mem_cons.mp hp with rfl | hp
        · exact Or.inl rfl
        · exact Or.inr (List.mem_cons_of_mem _ hp)
      · rw [setChild_cons_ne h] at hp
        rcases List.mem_cons.mp hp with rfl | hp
        · exact Or.inr (List.mem_cons_self _ _)
        · rcases ih hp with h1 | h1
          · exact Or.inl h1
          · exact Or.inr (List.mem_cons_of_mem _ h1)

theorem getChild_mem {ch : List (K × Trie K V)} {c : K} {t : Trie K V}
    (h : getChild ch c = some t) : (c, t) ∈ ch := by
  induction ch with
  | nil => simp [getChild] at h
  | cons p es ih =>
      obtain ⟨k, t₀⟩ := p
      by_cases h1 : c = k
      · subst h1
        rw [getChild_cons_self, Option.some.injEq] at h
        subst h
        exact List.mem_cons_self _ _
      · rw [getChild_cons_ne h1] at h
        exact List.mem_cons_of_mem _ (ih h)

theorem getChild_eq_of_mem {ch : List (K × Trie K V)} {c : K} {t : Trie K V}
    (hnd : (ch.map Prod.fst).Nodup) (hm : (c, t) ∈ ch) : getChild ch c = some t := by
  induction ch with
  | nil => simp at hm
  | cons p es ih =>
      obtain ⟨k, t₀⟩ := p
      simp only [List.map_cons, List.nodup_cons] at hnd
      rcases List.mem_cons.mp hm with h1 | h1
      · cases h1
        exact getChild_cons_self c t es
      · have hck : c ≠ k := by
          rintro rfl
          exact hnd.1 (List.mem_map.mpr ⟨(c, t), h1, rfl⟩)
        rw [getChild_cons_ne hck]
        exact ih hnd.2 h1

end AssocLemmas

/-! ### Structural lemmas about the core operations -/

section CoreLemmas

variable {K V : Type} [DecidableEq K]

@[simp] theorem get_ref_nil (t : Trie K V) : t.get_ref [] = some t := rfl

@[simp] theorem valueAt_nil (t : Trie K V) : t.valueAt [] = t.value := rfl

theorem valueAt_node_cons_none {a : Option V} {ch : List (K × Trie K V)} {c : K} {cs : List K}
    (h : getChild ch c = none) : (Trie.node a ch).valueAt (c :: cs) = none := by
  simp [Trie.valueAt, Trie.get_ref, h]

theorem valueAt_node_cons_some {a : Option V} {ch : List (K × Trie K V)} {c : K} {cs : List K}
    {child : Trie K V} (h : getChild ch c = some child) :
    (Trie.node a ch).valueAt (c :: cs) = child.valueAt cs := by
  simp [Trie.valueAt, Trie.get_ref, h]

theorem valueAt_new (s : List K) : (Trie.new : Trie K V).valueAt s = none := by
  cases s with
  | nil => rfl
  | cons c cs => exact valueAt_node_cons_none (getChild_nil c)

theorem insert_node_nil (val : Option V) (ch : List (K × Trie K V)) (v : V) :
    (Trie.node val ch).insert [] v = Trie.node (some v) ch := rfl

theorem insert_node_cons (val : Option V) (ch : List (K × Trie K V)) (c : K) (cs : List K)
    (v : V) :
    (Trie.node val ch).insert (c :: cs) v =
      Trie.node val (setChild ch c (((getChild ch c).getD Trie.new).insert cs v)) := rfl

theorem remove_fst_none (t : Trie K V) (s : List K) : (t.remove s).1 = none := by
  induction s generalizing t with
  | nil => rfl
  | cons c cs ih =>
      cases hg : getChild t.children c with
      | none => simp [Trie.remove, hg]
      | some child => simp [Trie.remove, hg, ih]

theorem remove_node_nil (val : Option V) (ch : List (K × Trie K V)) :
    (Trie.node val ch).remove [] = (none, Trie.node none ch) := rfl

theorem remove_node_cons_none {val : Option V} {ch : List (K × Trie K V)} {c : K} {cs : List K}
    (h : getChild ch c = none) :
    (Trie.node val ch).remove (c :: cs) = (none, Trie.node val ch) := by
  simp [Trie.remove, h]

theorem remove_node_cons_some {val : Option V} {ch : List (K × Trie K V)} {c : K} {cs : List K}
    {child : Trie K V} (h : getChild ch c = some child) :
    (Trie.node val ch).remove (c :: cs) =
      (none, Trie.node val (setChild ch c (child.remove cs).2)) := by
  simp [Trie.remove, h, remove_fst_none]

theorem contains_node_cons_none {a : Option V} {ch : List (K × Trie K V)} {c : K} {cs : List K}
    (h : getChild ch c = none) : Trie.contains_pfx (.node a ch) (c :: cs) = false := by
  simp [Trie.contains_pfx, h]

theorem contains_node_cons_some {a : Option V} {ch : List (K × Trie K V)} {c : K} {cs : List K}
    {child : Trie K V} (h : getChild ch c = some child) :
    Trie.contains_pfx (.node a ch) (c :: cs) = Trie.contains_pfx child cs := by
  simp [Trie.contains_pfx, h]

theorem get_ref_isSome_eq_contains_pfx (t : Trie K V) (s : List K) :
    (t.get_ref s).isSome = Trie.contains_pfx t s := by
  induction s generalizing t with
  | nil => rfl
  | cons c cs ih =>
      obtain ⟨val, ch⟩ := t
      cases hg : getChild ch c with
      | none => simp [Trie.get_ref, Trie.contains_pfx, hg]
      | some child => simp [Trie.get_ref, Trie.contains_pfx, hg, ih]

theorem contains_pfx_of_append {t : Trie K V} {p q : List K}
    (h : Trie.contains_pfx t (p ++ q) = true) : Trie.contains_pfx t p = true := by
  induction p generalizing t with
  | nil => rfl
  | cons c p' ih =>
      obtain ⟨val, ch⟩ := t
      cases hg : getChild ch c with
      | none =>
          rw [List.cons_append, contains_node_cons_none hg] at h
          exact absurd h (by simp)
      | some child =>
          rw [List.cons_append, contains_node_cons_some hg] at h
          rw [contains_node_cons_some hg]
          exact ih h

theorem contains_pfx_insert (t : Trie K V) (ks : List K) (v : V) :
    Trie.contains_pfx (t.insert ks v) ks = true := by
  induction ks generalizing t with
  | nil => rfl
  | cons k ktl ih =>
      obtain ⟨val, ch⟩ := t
      rw [insert_node_cons]
      rw [contains_node_cons_some (getChild_setChild_self ch k _)]
      exact ih _

theorem valueAt_insert (t : Trie K V) (ks s : List K) (v : V) :
    (t.insert ks v).valueAt s = if s = ks then some v else t.valueAt s := by
  induction ks generalizing t s with
  | nil =>
      obtain ⟨val, ch⟩ := t
      cases s with
      | nil => simp [insert_node_nil]
      | cons c cs =>
          rw [if_neg (by simp), insert_node_nil]
          cases hg : getChild ch c with
          | none => rw [valueAt_node_cons_none hg, valueAt_node_cons_none hg]
          | some child => rw [valueAt_node_cons_some hg, valueAt_node_cons_some hg]
  | cons k ktl ih =>
      obtain ⟨val, ch⟩ := t
      cases s with
      | nil =>
          rw [if_neg (by simp), insert_node_cons]
          simp
      | cons c cs =>
          rw [insert_node_cons]
          by_cases hck : c = k
          · subst hck
            rw [valueAt_node_cons_some (getChild_setChild_self ch c _)]
            rw [ih]
            by_cases hcs : cs = ktl
            · rw [if_pos hcs, if_pos (by rw [hcs])]
            · rw [if_neg hcs, if_neg (by simp [hcs])]
              cases hg : getChild ch c with
              | none => rw [Option.getD_none, valueAt_new, valueAt_node_cons_none hg]
              | some child => rw [Option.getD_some, valueAt_node_cons_some hg]
          · have hne : (c : K) :: cs ≠ k :: ktl := by simp [hck]
            rw [if_neg hne]
            cases hg : getChild ch c with
            | none =>
                rw [valueAt_node_cons_none (by rw [getChild_setChild_ne ch hck]; exact hg)]
                rw [valueAt_node_cons_none hg]
            | some child =>
                rw [valueAt_node_cons_some (by rw [getChild_setChild_ne ch hck]; exact hg)]
                rw [valueAt_node_cons_some hg]

theorem valueAt_remove (t : Trie K V) (ks s : List K) :
    ((t.remove ks).2).valueAt s = if s = ks then none else t.valueAt s := by
  induction ks generalizing t s with
  | nil =>
      obtain ⟨val, ch⟩ := t
      rw [remove_node_nil]
      cases s with
      | nil => simp
      | cons c cs =>
          rw [if_neg (by simp)]
          cases hg : getChild ch c with
          | none => rw [valueAt_node_cons_none hg, valueAt_node_cons_none hg]
          | some child => rw [valueAt_node_cons_some hg, valueAt_node_cons_some hg]
  | cons k ktl ih =>
      obtain ⟨val, ch⟩ := t
      cases hg : getChild ch k with
      | none =>
          rw [remove_node_cons_none hg]
          by_cases hs : s = k :: ktl
          · subst hs
            rw [if_pos rfl, valueAt_node_cons_none hg]
          · rw [if_neg hs]
      | some child =>
          rw [remove_node_cons_some hg]
          cases s with
          | nil => rw [if_neg (by simp)]; simp
          | cons c cs =>
              by_cases hck : c = k
              · subst hck
                rw [valueAt_node_cons_some (getChild_setChild_self ch c _)]
                rw [ih]
                by_cases hcs : cs = ktl
                · rw [if_pos hcs, if_pos (by rw [hcs])]
                · rw [if_neg hcs, if_neg (by simp [hcs]), valueAt_node_cons_some hg]
              · have hne : (c : K) :: cs ≠ k :: ktl := by simp [hck]
                rw [if_neg hne]
                cases hg2 : getChild ch c with
                | none =>
                    rw [valueAt_node_cons_none (by rw [getChild_setChild_ne ch hck]; exact hg2)]
                    rw [valueAt_node_cons_none hg2]
                | some child2 =>
                    rw [valueAt_node_cons_some (by rw [getChild_setChild_ne ch hck]; exact hg2)]
                    rw [valueAt_node_cons_some hg2]

theorem insert_insert (t : Trie K V) (s : List K) (v₁ v₂ : V) :
    (t.insert s v₁).insert s v₂ = t.insert s v₂ := by
  induction s generalizing t with
  | nil => rfl
  | cons c cs ih =>
      obtain ⟨val, ch⟩ := t
      rw [insert_node_cons, insert_node_cons, insert_node_cons]
      rw [getChild_setChild_self, Option.getD_some, ih, setChild_setChild]

theorem insert_alt_eq_insert (t : Trie K V) (ks : List K) (v : V) :
    t.insert_alt ks v = t.insert ks v := by
  induction ks generalizing t with
  | nil => rfl
  | cons k ktl ih => simp only [Trie.insert_alt, Trie.insert, ih]

theorem foldStep_go (ks : List K) (v : V) :
    ∀ (t : Trie K V) (f : Trie K V → Trie K V),
      (ks.foldl Trie.foldStep (f, t)).1
          (Trie.node (some v) ((ks.foldl Trie.foldStep (f, t)).2).children)
        = f (t.insert ks v) := by
  induction ks with
  | nil => intro t f; rfl
  | cons k ktl ih =>
      intro t f
      rw [List.foldl_cons]
      rw [ih]
      rfl

theorem insert_fold_eq_insert (t : Trie K V) (ks : List K) (v : V) :
    t.insert_fold ks v = t.insert ks v := by
  have h := foldStep_go ks v t id
  simpa [Trie.insert_fold] using h

theorem remove_of_valueAt_none {t : Trie K V} {s : List K}
    (h : t.valueAt s = none) : t.remove s = (none, t) := by
  induction s generalizing t with
  | nil =>
      obtain ⟨val, ch⟩ := t
      rw [valueAt_nil, Trie.value_node] at h
      rw [remove_node_nil, h]
  | cons c cs ih =>
      obtain ⟨val, ch⟩ := t
      cases hg : getChild ch c with
      | none => rw [remove_node_cons_none hg]
      | some child =>
          rw [valueAt_node_cons_some hg] at h
          rw [remove_node_cons_some hg, ih h, setChild_of_getChild_eq hg]

end CoreLemmas

/-! ### Well-formedness preservation and the model correspondence -/

section ModelLemmas

variable {K V : Type} [DecidableEq K]

theorem WF_insert (ks : List K) (v : V) :
    ∀ (t : Trie K V), WF t → WF (t.insert ks v) := by
  induction ks with
  | nil =>
      intro t h
      obtain ⟨val, ch⟩ := t
      rw [insert_node_nil]
      exact WF.mk _ _ h.nodup_keys h.children_wf
  | cons k ktl ih =>
      intro t h
      obtain ⟨val, ch⟩ := t
      rw [insert_node_cons]
      have hchild : WF ((getChild ch k).getD Trie.new) := by
        cases hg : getChild ch k with
        | none => exact WF_new
        | some c₀ => exact h.children_wf _ (getChild_mem hg)
      refine WF.mk _ _ (nodup_keys_setChild _ _ h.nodup_keys) ?_
      intro p hp
      rcases mem_of_mem_setChild hp with rfl | hp₂
      · exact ih _ hchild
      · exact h.children_wf _ hp₂

theorem WF_remove (ks : List K) :
    ∀ (t : Trie K V), WF t → WF ((t.remove ks).2) := by
  induction ks with
  | nil =>
      intro t h
      obtain ⟨val, ch⟩ := t
      rw [remove_node_nil]
      exact WF.mk _ _ h.nodup_keys h.children_wf
  | cons k ktl ih =>
      intro t h
      obtain ⟨val, ch⟩ := t
      cases hg : getChild ch k with
      | none =>
          rw [remove_node_cons_none hg]
          exact h
      | some child =>
          rw [remove_node_cons_some hg]
          refine WF.mk _ _ (nodup_keys_setChild _ _ h.nodup_keys) ?_
          intro p hp
          rcases mem_of_mem_setChild hp with rfl | hp₂
          · exact ih child (h.children_wf _ (getChild_mem hg))
          · exact h.children_wf _ hp₂

theorem WF_applyOps (ops : List (TrieOp K V)) :
    ∀ (t : Trie K V), WF t → WF (applyOps t ops) := by
  induction ops with
  | nil => intro t h; exact h
  | cons op rest ih =>
      intro t h
      have h' : WF (applyOp t op) := by
        cases op with
        | ins ks v => exact WF_insert ks v t h
        | rem ks => exact WF_remove ks t h
      exact ih (applyOp t op) h'

theorem valueAt_applyOps (ops : List (TrieOp K V)) (s : List K) :
    ∀ (t : Trie K V),
      (applyOps t ops).valueAt s = ops.foldl (modelStep s) (t.valueAt s) := by
  induction ops with
  | nil => intro t; rfl
  | cons op rest ih =>
      intro t
      have h1 : applyOps t (op :: rest) = applyOps (applyOp t op) rest := rfl
      have h2 : (applyOp t op).valueAt s = modelStep s (t.valueAt s) op := by
        cases op with
        | ins ks v => exact valueAt_insert t ks s v
        | rem ks => exact valueAt_remove t ks s
      rw [h1, ih, h2, List.foldl_cons]

theorem valueAt_buildOps (ops : List (TrieOp K V)) (s : List K) :
    (applyOps Trie.new ops).valueAt s = modelMap ops s := by
  rw [valueAt_applyOps ops s Trie.new, valueAt_new]
  rfl

theorem modelMap_of_not_insKey {s : List K} :
    ∀ (ops : List (TrieOp K V)), s ∉ insKeys ops → modelMap ops s = none := by
  have base : ∀ (ops : List (TrieOp K V)), s ∉ insKeys ops →
      ops.foldl (modelStep s) none = (none : Option V) := by
    intro ops
    induction ops with
    | nil => intro _; rfl
    | cons op rest ih =>
        intro h
        cases op with
        | ins ks v =>
            rw [insKeys] at h
            have hks : s ≠ ks := fun hs => h (hs ▸ List.mem_cons_self _ _)
            have hrest : s ∉ insKeys rest := fun hs => h (List.mem_cons_of_mem _ hs)
            rw [List.foldl_cons]
            have hstep : modelStep s (none : Option V) (.ins ks v) = none := by
              simp [modelStep, hks]
            rw [hstep]
            exact ih hrest
        | rem ks =>
            rw [insKeys] at h
            rw [List.foldl_cons]
            have hstep : modelStep s (none : Option V) (.rem ks) = none := by
              simp [modelStep]
            rw [hstep]
            exact ih h
  intro ops h
  exact base ops h

theorem remove_not_inserted (ops : List (TrieOp K V)) (s : List K)
    (h : s ∉ insKeys ops) :
    (applyOps Trie.new ops).remove s = (none, applyOps Trie.new ops) := by
  apply remove_of_valueAt_none
  rw [valueAt_buildOps]
  exact modelMap_of_not_insKey ops h

end ModelLemmas

/-! ### The denotation of the iterator -/

section IterLemmas

variable {K V : Type} [DecidableEq K]

theorem subtreeItems_node (v : Option V) (ch : List (K × Trie K V)) :
    subtreeItems (.node v ch) =
      (match v with
       | some x => [(([] : List K), x)]
       | none => []) ++ subtreeItemsL ch := by
  simp only [subtreeItems]

theorem subtreeItemsL_nil : subtreeItemsL ([] : List (K × Trie K V)) = [] := by
  simp only [subtreeItemsL]

theorem subtreeItemsL_cons (k : K) (c : Trie K V) (es : List (K × Trie K V)) :
    subtreeItemsL ((k, c) :: es) =
      ((subtreeItems c).map fun it => ((k :: it.1 : List K), it.2)) ++ subtreeItemsL es := by
  simp only [subtreeItemsL]

/-- Denotation of a full iterator state: the items still to be produced from
a reconstructed key and a stack of remaining child-iterator frames. -/
def stackDen : List K → List (List (K × Trie K V)) → List (List K × V)
  | _, [] => []
  | pfx, es :: stk =>
      ((subtreeItemsL es).map fun it => (pfx ++ it.1, it.2)) ++ stackDen pfx.dropLast stk

theorem drain_all (pfx : List K) (stk : List (List (K × Trie K V))) :
    drain pfx stk = stackDen pfx stk := by
  induction pfx, stk using drain.induct with
  | case1 pfx => simp only [drain, stackDen]
  | case2 pfx stk ih =>
      simp only [drain, stackDen, subtreeItemsL_nil, List.map_nil, List.nil_append]
      exact ih
  | case3 pfx k c es stk ih =>
      obtain ⟨cv, cch⟩ := c
      simp only [Trie.children_node] at ih
      cases cv with
      | none =>
          simp only [drain, ih, stackDen, subtreeItemsL_cons, subtreeItems_node,
            List.map_append, List.map_map, List.map_cons, List.map_nil,
            List.dropLast_concat, Trie.children_node, Trie.value_node,
            List.append_assoc, Function.comp_def, List.singleton_append,
            List.cons_append, List.nil_append]
      | some x =>
          simp only [drain, ih, stackDen, subtreeItemsL_cons, subtreeItems_node,
            List.map_append, List.map_map, List.map_cons, List.map_nil,
            List.dropLast_concat, Trie.children_node, Trie.value_node,
            List.append_assoc, Function.comp_def, List.singleton_append,
            List.cons_append, List.nil_append]

theorem iterItems_eq (t : Trie K V) : t.iterItems = subtreeItemsL t.children := by
  rw [Trie.iterItems, drain_all]
  simp only [stackDen, List.dropLast_nil]
  rw [List.append_nil]
  have : (fun it : List K × V => (([] : List K) ++ it.1, it.2)) = id := by
    funext it
    simp
  rw [this, List.map_id]

theorem mem_subtreeItemsL_raw {es : List (K × Trie K V)} {s : List K} {v : V} :
    (s, v) ∈ subtreeItemsL es ↔
      ∃ k c cs, s = k :: cs ∧ (k, c) ∈ es ∧ (cs, v) ∈ subtreeItems c := by
  induction es with
  | nil => simp [subtreeItemsL_nil]
  | cons p es ih =>
      obtain ⟨k₀, c₀⟩ := p
      rw [subtreeItemsL_cons, List.mem_append]
      constructor
      · rintro (hm | hm)
        · rcases List.mem_map.mp hm with ⟨it, hit, heq⟩
          have h1 : k₀ :: it.1 = s := congrArg Prod.fst heq
          have h2 : it.2 = v := congrArg Prod.snd heq
          refine ⟨k₀, c₀, it.1, h1.symm, List.mem_cons_self _ _, ?_⟩
          rw [← h2]
          simpa using hit
        · rcases ih.mp hm with ⟨k, c, cs, h1, h2, h3⟩
          exact ⟨k, c, cs, h1, List.mem_cons_of_mem _ h2, h3⟩
      · rintro ⟨k, c, cs, rfl, hmem, hit⟩
        rcases List.mem_cons.mp hmem with heq | hmem2
        · cases heq
          left
          exact List.mem_map.mpr ⟨(cs, v), hit, rfl⟩
        · right
          exact ih.mpr ⟨k, c, cs, rfl, hmem2, hit⟩

theorem mem_subtreeItems_iff {t : Trie K V} (hwf : WF t) :
    ∀ (s : List K) (v : V), ((s, v) ∈ subtreeItems t ↔ t.valueAt s = some v) := by
  induction hwf with
  | mk val ch hnd hch ih =>
      intro s v
      rw [subtreeItems_node, List.mem_append]
      cases s with
      | nil =>
          rw [valueAt_nil, Trie.value_node]
          constructor
          · rintro (hm | hm)
            · cases val with
              | none => simp at hm
              | some x =>
                  simp only [List.mem_singleton, Prod.mk.injEq] at hm
                  rw [hm.2]
            · rcases mem_subtreeItemsL_raw.mp hm with ⟨k, c, cs, hks, _, _⟩
              exact absurd hks (by simp)
          · intro hv
            left
            rw [hv]
            simp
      | cons c cs =>
          constructor
          · rintro (hm | hm)
            · cases val with
              | none => simp at hm
              | some x =>
                  simp only [List.mem_singleton, Prod.mk.injEq] at hm
                  exact absurd hm.1 (by simp)
            · rcases mem_subtreeItemsL_raw.mp hm with ⟨k, c', cs', heq, hmem, hit⟩
              obtain ⟨rfl, rfl⟩ : c = k ∧ cs = cs' := by
                injection heq with h1 h2
                exact ⟨h1, h2⟩
              have hgc : getChild ch c = some c' := getChild_eq_of_mem hnd hmem
              rw [valueAt_node_cons_some hgc]
              exact (ih _ hmem cs v).mp hit
          · intro hv
            right
            cases hg : getChild ch c with
            | none =>
                rw [valueAt_node_cons_none hg] at hv
                exact absurd hv (by simp)
            | some child =>
                rw [valueAt_node_cons_some hg] at hv
                exact mem_subtreeItemsL_raw.mpr
                  ⟨c, child, cs, rfl, getChild_mem hg,
                    (ih _ (getChild_mem hg) cs v).mpr hv⟩

theorem keys_shape_subtreeItemsL {es : List (K × Trie K V)} {s : List K}
    (h : s ∈ (subtreeItemsL es).map Prod.fst) :
    ∃ k cs, s = k :: cs ∧ k ∈ es.map Prod.fst := by
  rcases List.mem_map.mp h with ⟨it, hit, heq⟩
  obtain ⟨s', v'⟩ := it
  rcases mem_subtreeItemsL_raw.mp hit with ⟨k, c, cs, heq2, hmem, _⟩
  refine ⟨k, cs, ?_, List.mem_map.mpr ⟨(k, c), hmem, rfl⟩⟩
  rw [← heq]
  exact heq2

theorem nodup_keys_subtreeItemsL {es : List (K × Trie K V)}
    (hnd : (es.map Prod.fst).Nodup)
    (hch : ∀ p ∈ es, ((subtreeItems p.2).map Prod.fst).Nodup) :
    ((subtreeItemsL es).map Prod.fst).Nodup := by
  induction es with
  | nil => simp [subtreeItemsL_nil]
  | cons p es ih =>
      obtain ⟨k, c⟩ := p
      rw [subtreeItemsL_cons, List.map_append]
      simp only [List.map_cons, List.nodup_cons] at hnd
      refine List.Nodup.append ?_
        (ih hnd.2 (fun q hq => hch q (List.mem_cons_of_mem _ hq))) ?_
      · have hmm : ((subtreeItems c).map fun it => ((k :: it.1 : List K), it.2)).map Prod.fst
            = ((subtreeItems c).map Prod.fst).map (fun s => k :: s) := by
          rw [List.map_map, List.map_map]
          rfl
        rw [hmm]
        refine List.Nodup.map ?_ (hch (k, c) (List.mem_cons_self _ _))
        intro a b hab
        injection hab
      · intro a ha hb
        rcases List.mem_map.mp ha with ⟨x, hx, heqx⟩
        rcases List.mem_map.mp hx with ⟨it, _, heqit⟩
        have hak : a = k :: it.1 := by
          rw [← heqx, ← heqit]
        rcases keys_shape_subtreeItemsL hb with ⟨k', cs', heq', hk'⟩
        have : k = k' := by
          rw [hak] at heq'
          injection heq'
        exact hnd.1 (this ▸ hk')

theorem nodup_keys_subtreeItems {t : Trie K V} (hwf : WF t) :
    ((subtreeItems t).map Prod.fst).Nodup := by
  induction hwf with
  | mk val ch hnd hch ih =>
      rw [subtreeItems_node, List.map_append]
      refine List.Nodup.append ?_ (nodup_keys_subtreeItemsL hnd ih) ?_
      · cases val <;> simp
      · intro a ha hb
        cases val with
        | none => simp at ha
        | some x =>
            simp only [List.map_cons, List.map_nil, List.mem_singleton] at ha
            subst ha
            rcases keys_shape_subtreeItemsL hb with ⟨k, cs, heq, _⟩
            exact absurd heq (by simp)

theorem mem_iterItems_iff {t : Trie K V} (hwf : WF t) (s : List K) (v : V) :
    (s, v) ∈ t.iterItems ↔ (s ≠ [] ∧ t.valueAt s = some v) := by
  obtain ⟨val, ch⟩ := t
  rw [iterItems_eq, Trie.children_node]
  constructor
  · intro hm
    rcases mem_subtreeItemsL_raw.mp hm with ⟨k, c, cs, rfl, hmem, hit⟩
    refine ⟨by simp, ?_⟩
    have hg := getChild_eq_of_mem hwf.nodup_keys hmem
    rw [valueAt_node_cons_some hg]
    exact (mem_subtreeItems_iff (hwf.children_wf _ hmem) cs v).mp hit
  · rintro ⟨hne, hv⟩
    cases s with
    | nil => exact absurd rfl hne
    | cons c cs =>
        cases hg : getChild ch c with
        | none =>
            rw [valueAt_node_cons_none hg] at hv
            exact absurd hv (by simp)
        | some child =>
            rw [valueAt_node_cons_some hg] at hv
            exact mem_subtreeItemsL_raw.mpr
              ⟨c, child, cs, rfl, getChild_mem hg,
                (mem_subtreeItems_iff (hwf.children_wf _ (getChild_mem hg)) cs v).mpr hv⟩

theorem nodup_keys_iterItems {t : Trie K V} (hwf : WF t) :
    ((t.iterItems).map Prod.fst).Nodup := by
  obtain ⟨val, ch⟩ := t
  rw [iterItems_eq, Trie.children_node]
  exact nodup_keys_subtreeItemsL hwf.nodup_keys
    (fun p hp => nodup_keys_subtreeItems (hwf.children_wf _ hp))

theorem mem_iterItems_key_ne_nil {t : Trie K V} {it : List K × V}
    (hm : it ∈ t.iterItems) : it.1 ≠ [] := by
  obtain ⟨s, v⟩ := it
  rw [iterItems_eq] at hm
  rcases mem_subtreeItemsL_raw.mp hm with ⟨k, c, cs, heq, _, _⟩
  rw [heq]
  simp

end IterLemmas

/-! ### The breadth-first value collection versus the strict descendants -/

section BfsLemmas

variable {K V : Type} [DecidableEq K]

theorem snd_subtreeItemsL (es : List (K × Trie K V)) :
    (subtreeItemsL es).map Prod.snd
      = es.flatMap fun p => (subtreeItems p.2).map Prod.snd := by
  induction es with
  | nil => simp [subtreeItemsL_nil]
  | cons p es ih =>
      obtain ⟨k, c⟩ := p
      rw [subtreeItemsL_cons, List.map_append, List.map_map, ih, List.flatMap_cons]
      have hsnd : (Prod.snd ∘ fun it : List K × V => ((k :: it.1 : List K), it.2))
          = Prod.snd := by
        funext it
        rfl
      rw [hsnd]

theorem snd_subtreeItems (t : Trie K V) :
    (subtreeItems t).map Prod.snd = t.value.toList ++ strictDescValues t := by
  obtain ⟨val, ch⟩ := t
  have h2 : strictDescValues (Trie.node val ch) = (subtreeItemsL ch).map Prod.snd := rfl
  rw [subtreeItems_node, List.map_append, h2, Trie.value_node]
  cases val <;> simp

theorem filterMap_value_eq_flatMap (ch : List (K × Trie K V)) :
    (ch.filterMap fun p => p.2.value) = ch.flatMap fun p => p.2.value.toList := by
  induction ch with
  | nil => rfl
  | cons p es ih =>
      obtain ⟨k, c⟩ := p
      rw [List.filterMap_cons, List.flatMap_cons]
      cases hv : c.value with
      | none => simpa [hv] using ih
      | some x => simp [hv, ih]

theorem strictDescValues_eq (t : Trie K V) :
    strictDescValues t
      = t.children.flatMap fun p => p.2.value.toList ++ strictDescValues p.2 := by
  obtain ⟨val, ch⟩ := t
  have h1 : strictDescValues (Trie.node val ch) = (subtreeItemsL ch).map Prod.snd := rfl
  rw [h1, snd_subtreeItemsL, Trie.children_node]
  have h2 : (fun p : K × Trie K V => (subtreeItems p.2).map Prod.snd)
      = fun p => p.2.value.toList ++ strictDescValues p.2 := by
    funext p
    exact snd_subtreeItems p.2
  rw [h2]

theorem bfsValues_perm (l : List (Trie K V)) :
    (bfsValues l).Perm (l.flatMap strictDescValues) := by
  induction l using bfsValues.induct with
  | case1 => simp [bfsValues]
  | case2 t queue ih =>
      have hstep : bfsValues (t :: queue)
          = (t.children.filterMap fun p => p.2.value)
              ++ bfsValues (queue ++ t.children.map Prod.snd) := by
        simp only [bfsValues]
      rw [hstep]
      refine List.Perm.trans (List.Perm.append_left _ ih) ?_
      rw [List.flatMap_append, List.flatMap_cons]
      have hmapbind : (t.children.map Prod.snd).flatMap strictDescValues
          = t.children.flatMap fun p => strictDescValues p.2 := by
        rw [List.flatMap_map]
      rw [hmapbind, filterMap_value_eq_flatMap]
      refine List.Perm.trans (List.Perm.append_left _ List.perm_append_comm) ?_
      rw [← List.append_assoc]
      refine List.Perm.trans
        (List.Perm.append_right _ (List.flatMap_append_perm t.children _ _)) ?_
      simp only [← strictDescValues_eq]
      exact List.Perm.refl _

theorem values_vec_perm (t : Trie K V) :
    (t.values_vec).Perm (strictDescValues t) := by
  have h := bfsValues_perm [t]
  simpa [Trie.values_vec] using h

end BfsLemmas

/-! ### The claims -/

section Claims

/-- C1: the spec requires that after `insert(s, v)` a call `remove(s)` return
`Some(v)` — the value the target node held before clearing.  The embedded
`Trie::remove` of `src/lib.rs` instead returns `None` on every input: its base
case sets `self.value = None` without taking the old value, so the recursion's
`del` is always `None` and the propagation branch is unreachable.  The theorem
proves the general always-`None` fact and evaluates the code at the failing
input (empty trie, `insert [0] ↦ 1`, then `remove [0]`); the second half of
the claim — the reached node's value is cleared — does hold there. -/
theorem c1_remove_always_none :
    (∀ (K V : Type) [DecidableEq K] (t : Trie K V) (s : List K),
        (t.remove s).1 = none)
    ∧ ((Trie.new.insert [0] 1 : Trie Nat Nat).remove [0]).1 = none
    ∧ ((Trie.new.insert [0] 1 : Trie Nat Nat).remove [0]).2.valueAt [0] = none := by
  refine ⟨?_, rfl, rfl⟩
  intro K V inst t s
  exact remove_fst_none t s

/-- C2: the spec's dead-node invariant fails for `src/lib.rs`: since its
`remove` always returns `None` (see `remove_fst_none`), the pruning branch
`if del.is_some() { entry.remove(); }` is unreachable, and after
`insert [0] ↦ 1; remove [0]` the non-root node at `[0]` persists with value
`None` and no children — exactly the code's own `is_empty` (dead) predicate.
The `remove` of `src/assoc.rs` (embedded as `removeB`) does prune: on the
same input it returns the trie to the empty root. -/
theorem c2_dead_node_persists :
    ((Trie.new.insert [0] 1 : Trie Nat Nat).remove [0]).2
        = Trie.node none [(0, Trie.node none [])]
    ∧ Trie.is_empty (Trie.node none ([] : List (Nat × Trie Nat Nat))) = true
    ∧ ((Trie.new.insert [0] 1 : Trie Nat Nat).removeB [0]).2 = Trie.new :=
  ⟨rfl, rfl, rfl⟩

/-- C3 counterexample: insert the empty key with value `0` into the empty
trie.  The abstract map of the operation history assigns `some 0` to the
empty key, yet the iterator yields nothing for it — the root's value is never
enumerated — so the multiset produced by iterating differs from the multiset
of inserted-and-not-removed pairs, and the root is a valued node contributing
no pair. -/
theorem c3_ce_root_value_not_enumerated :
    modelMap [TrieOp.ins ([] : List Nat) (0 : Nat)] [] = some 0
    ∧ (([] : List Nat), (0 : Nat))
        ∉ (applyOps Trie.new [TrieOp.ins ([] : List Nat) 0]).iterItems := by
  refine ⟨rfl, ?_⟩
  intro hm
  exact mem_iterItems_key_ne_nil hm rfl

/-- C3 (amended): for every trie built from the empty trie by inserts and
removes, the enumeration is exactly the abstract map of the history
restricted to non-empty keys: the reconstructed keys are pairwise distinct,
and a pair `(s, v)` is yielded iff `s` is non-empty and the abstract map
sends `s` to `v`.  (Each valued non-root node hence contributes exactly one
pair, keyed by its root-to-node path; the root's value — the empty key — is
the one exception to the claim as stated.) -/
theorem c3_enumeration_completeness (K V : Type) [DecidableEq K]
    (ops : List (TrieOp K V)) :
    (((applyOps Trie.new ops).iterItems).map Prod.fst).Nodup
    ∧ ∀ (s : List K) (v : V),
        ((s, v) ∈ (applyOps Trie.new ops).iterItems
          ↔ (s ≠ [] ∧ modelMap ops s = some v)) := by
  have hwf : WF (applyOps (Trie.new : Trie K V) ops) := WF_applyOps ops Trie.new WF_new
  refine ⟨nodup_keys_iterItems hwf, ?_⟩
  intro s v
  rw [mem_iterItems_iff hwf s v, valueAt_buildOps]

theorem c3_enumeration_completeness_witness :
    (([0], 1) : List Nat × Nat) ∈ (applyOps Trie.new [TrieOp.ins [0] 1]).iterItems :=
  ((c3_enumeration_completeness Nat Nat [TrieOp.ins [0] 1]).2 [0] 1).mpr
    ⟨by decide, by decide⟩

/-- C4: immediately after `insert(s, v)`, the node reached by `s` exists with
value field `Some v`, and the prefix-containment check for `s` (both as
`get_ref(s).is_some()` and as `contains_prefix(s)`) is true. -/
theorem c4_insert_roundtrip (K V : Type) [DecidableEq K]
    (t : Trie K V) (s : List K) (v : V) :
    (t.insert s v).valueAt s = some v
    ∧ Trie.contains_pfx (t.insert s v) s = true
    ∧ ((t.insert s v).get_ref s).isSome = true := by
  refine ⟨?_, contains_pfx_insert t s v, ?_⟩
  · rw [valueAt_insert]
    simp
  · rw [get_ref_isSome_eq_contains_pfx]
    exact contains_pfx_insert t s v

/-- C5: the explicit-loop `insert`, the raw-pointer `insert_alt` and the
fold-based `insert_fold` produce identical resulting tries on every input;
identical tries give identical node structure, values, and all subsequent
lookup and enumeration results. -/
theorem c5_insert_variants_equivalent (K V : Type) [DecidableEq K]
    (t : Trie K V) (s : List K) (v : V) :
    t.insert_alt s v = t.insert s v ∧ t.insert_fold s v = t.insert s v :=
  ⟨insert_alt_eq_insert t s v, insert_fold_eq_insert t s v⟩

/-- C6: prefix monotonicity — if the containment check holds for `s` it holds
for every prefix of `s`; it always holds for the empty sequence (also on the
empty trie); and the `get_ref`-is-some check agrees with `contains_prefix`
everywhere. -/
theorem c6_contains_monotone (K V : Type) [DecidableEq K] :
    (∀ (t : Trie K V) (s p : List K),
        Trie.contains_pfx t s = true → p <+: s → Trie.contains_pfx t p = true)
    ∧ (∀ (t : Trie K V), Trie.contains_pfx t [] = true)
    ∧ (∀ (t : Trie K V) (s : List K),
        (t.get_ref s).isSome = Trie.contains_pfx t s) := by
  refine ⟨?_, fun t => rfl, fun t s => get_ref_isSome_eq_contains_pfx t s⟩
  intro t s p hs hp
  obtain ⟨q, rfl⟩ := hp
  exact contains_pfx_of_append hs

theorem c6_contains_monotone_witness :
    Trie.contains_pfx (Trie.new.insert [0, 1] (5 : Nat)) [0] = true :=
  (c6_contains_monotone Nat Nat).1 (Trie.new.insert [0, 1] 5) [0, 1] [0]
    (by decide) ⟨[1], rfl⟩

/-- C7: removing a key that was never inserted returns `None` and leaves the
trie literally unchanged (hence the same enumeration and no node created or
pruned).  Tries are quantified as the results of arbitrary insert/remove
histories from the empty trie, and "never inserted" as absence from the
history's insertion keys. -/
theorem c7_remove_absent_noop (K V : Type) [DecidableEq K]
    (ops : List (TrieOp K V)) (s : List K) (h : s ∉ insKeys ops) :
    (applyOps Trie.new ops).remove s = (none, applyOps Trie.new ops)
    ∧ ((applyOps Trie.new ops).remove s).2.iterItems
        = (applyOps Trie.new ops).iterItems := by
  have hmain := remove_not_inserted ops s h
  refine ⟨hmain, ?_⟩
  rw [hmain]

theorem c7_remove_absent_noop_witness :
    (applyOps Trie.new [TrieOp.ins [0] (1 : Nat)]).remove [1]
      = (none, applyOps Trie.new [TrieOp.ins [0] (1 : Nat)]) :=
  (c7_remove_absent_noop Nat Nat [TrieOp.ins [0] 1] [1] (by decide)).1

/-- C8: overwriting — inserting `s ↦ v₁` then `s ↦ v₂` yields the very same
trie as inserting `s ↦ v₂` once (so no duplicate node or second entry for `s`
exists), and the single stored value at `s` is `v₂`. -/
theorem c8_overwrite (K V : Type) [DecidableEq K]
    (t : Trie K V) (s : List K) (v₁ v₂ : V) :
    (t.insert s v₁).insert s v₂ = t.insert s v₂
    ∧ ((t.insert s v₁).insert s v₂).valueAt s = some v₂ := by
  refine ⟨insert_insert t s v₁ v₂, ?_⟩
  rw [insert_insert t s v₁ v₂, valueAt_insert]
  simp

/-- C9: removing the empty sequence clears the root's value field, never
removes the root, and leaves the root's children mapping unchanged, on every
trie. -/
theorem c9_remove_empty_key (K V : Type) [DecidableEq K] (t : Trie K V) :
    (t.remove []).2 = Trie.node none t.children
    ∧ ((t.remove []).2).value = none
    ∧ ((t.remove []).2).children = t.children :=
  ⟨rfl, rfl, rfl⟩

/-- C10: the iterator never produces the root's value — every yielded item
has a non-empty reconstructed key — and `values_vec` collects exactly the
values of the strict descendants of the node it is called on (as a
permutation, i.e. the same multiset). -/
theorem c10_root_value_not_yielded (K V : Type) [DecidableEq K] :
    (∀ (t : Trie K V) (it : List K × V), it ∈ t.iterItems → it.1 ≠ [])
    ∧ (∀ (t : Trie K V), (t.values_vec).Perm (strictDescValues t)) :=
  ⟨fun _ _ hm => mem_iterItems_key_ne_nil hm, fun t => values_vec_perm t⟩

theorem c10_root_value_not_yielded_witness :
    (([0], 6) : List Nat × Nat).1 ≠ [] := by
  have hm : (([0], 6) : List Nat × Nat) ∈ (Trie.new.insert [0] (6 : Nat)).iterItems :=
    (mem_iterItems_iff (WF_insert [0] 6 Trie.new WF_new) [0] 6).mpr
      ⟨by simp, by decide⟩
  exact (c10_root_value_not_yielded Nat Nat).1 (Trie.new.insert [0] 6) ([0], 6) hm

end Claims
